import Mathlib

set_option maxHeartbeats 1000000

/-!
Shallow embedding of the handler-resolution core of handlr-regex:
the user association store (src/handlr-regex/src/apps/user.rs), the
system association store (src/handlr-regex/src/apps/system.rs), the
handler abstraction (src/handlr-regex/src/common/handler.rs) and the
resolution engine (src/handlr-regex/src/apps_config.rs).

External collaborators (filesystem, the selector subprocess, the shell
tokenizer, content-type detection, the regex engine) are passed in as an
`Env` of functions.  Rust `HashMap`s are modelled as association lists
whose iteration order is the list order; the operations keep keys unique.
-/

deriving instance DecidableEq for Except

namespace Handlr

/-- The error kinds of error.rs that the resolution engine produces or
inspects. -/
inductive ErrorKind where
  | notFound : String → ErrorKind
  | cancelled : ErrorKind
  | badCmd : String → ErrorKind
  | selector : String → ErrorKind
  | badPath : String → ErrorKind
  | noTerminal : ErrorKind
  | otherErr : ErrorKind
deriving DecidableEq

/-- The structured record read from a desktop entry file; only the fields
the resolution core consumes. -/
structure DesktopEntry where
  name : String
  exec : String
  file_name : String
  terminal : Bool
  mimes : List String
deriving DecidableEq

/-- The external collaborators of the core: `entries` is
`DesktopHandler::get_entry` (a disk read), `shlex` tokenizes the selector
command, `spawn` runs the selector subprocess on the candidate lines and
yields its raw standard output, `getMime` is `UserPath::get_mime`
(content-type sniffing / URL scheme), and `regexMatch` is
`RegexSet::is_match` of the regex crate on a pattern set. -/
structure Env where
  entries : String → Except ErrorKind DesktopEntry
  shlex : String → Option (String × List String)
  spawn : String → List String → List String → Except ErrorKind String
  getMime : String → Except ErrorKind String
  regexMatch : List String → String → Bool

/-- Glob matching as in the wildmatch crate used by `get_from_wildcard`:
`*` matches any (possibly empty) sequence of characters, `?` matches
exactly one character, anything else matches literally.  A `*` is matched
by trying every suffix of the remaining text. -/
def globList : List Char → List Char → Bool
  | [], t => t.isEmpty
  | '*' :: ps, t => t.tails.any (fun s => globList ps s)
  | '?' :: _, [] => false
  | '?' :: ps, _ :: cs => globList ps cs
  | _ :: _, [] => false
  | p :: ps, c :: cs => p == c && globList ps cs

/-- `WildMatch::new(pattern).matches(text)`. -/
def wildMatch (pattern text : String) : Bool :=
  globList pattern.data text.data

/-- Append `v` to the list bound to `k`, creating the binding at the back
if absent: `map.entry(k).or_default().push_back(v)`. -/
def pushAssoc : List (String × List String) → String → String → List (String × List String)
  | [], k, v => [(k, [v])]
  | (k', l) :: rest, k, v =>
    if k' == k then (k', l ++ [v]) :: rest
    else (k', l) :: pushAssoc rest k v

/-- Bind `k` to `v`, replacing an existing binding in place or creating it
at the back: `HashMap::insert`. -/
def insertAssoc : List (String × List String) → String → List String → List (String × List String)
  | [], k, v => [(k, v)]
  | (k', l) :: rest, k, v =>
    if k' == k then (k, v) :: rest
    else (k', l) :: insertAssoc rest k v

/-- `map.entry(k).or_default()` observed on the map itself: ensure an
entry for `k` exists, empty when freshly created. -/
def entryOrDefault (d : List (String × List String)) (k : String) : List (String × List String) :=
  if (List.lookup k d).isSome then d else d ++ [(k, [])]

/-- Split a character list at every `;`, like Rust's `str::split(';')`
(an ending semicolon yields a final empty piece). -/
def splitSemi : List Char → List (List Char)
  | [] => [[]]
  | c :: cs =>
    match splitSemi cs with
    | [] => [[]]
    | r :: rs => if c == ';' then [] :: r :: rs else (c :: r) :: rs

/-- Keep the first occurrence of every string, like itertools'
`unique()`. -/
def uniqueFrom (seen : List String) : List String → List String
  | [] => []
  | x :: xs =>
    if seen.contains x then uniqueFrom seen xs
    else x :: uniqueFrom (x :: seen) xs

/-- `DesktopList::from_str`: split on `;`, drop empty pieces (accounting
for the ending semicolon), keep first occurrences, and keep only the
names for which `DesktopHandler::from_str` succeeds (`valid` stands for
that disk-backed validity check). -/
def desktopListFromStr (valid : String → Bool) (s : String) : List String :=
  (uniqueFrom []
      (((splitSemi s.data).filter (fun l => !l.isEmpty)).map
        (fun l => String.mk l))).filter valid

/-- Join with `;` like itertools' `join(";")`. -/
def joinSemi : List String → String
  | [] => ""
  | [x] => x
  | x :: xs => x ++ ";" ++ joinSemi xs

/-- `Display for DesktopList`: the joined names with the final semicolon
ensured. -/
def desktopListDisplay (l : List String) : String :=
  joinSemi l ++ ";"

/-- The two mappings of the user's mimeapps.list. -/
structure MimeApps where
  added_associations : List (String × List String)
  default_apps : List (String × List String)
deriving DecidableEq

/-- `MimeApps::add_handler`. -/
def MimeApps.add_handler (m : MimeApps) (mime handler : String) : MimeApps :=
  { m with default_apps := pushAssoc m.default_apps mime handler }

/-- `MimeApps::set_handler`. -/
def MimeApps.set_handler (m : MimeApps) (mime handler : String) : MimeApps :=
  { m with default_apps := insertAssoc m.default_apps mime [handler] }

/-- `MimeApps::remove_handler`: materialize the entry, find the first
position equal to the handler, and remove it, returning the removed
handler if any. -/
def MimeApps.remove_handler (m : MimeApps) (mime handler : String) :
    Option String × MimeApps :=
  let d := entryOrDefault m.default_apps mime
  let l := (List.lookup mime d).getD []
  match l.findIdx? (fun x => x == handler) with
  | none => (none, { m with default_apps := d })
  | some i => (l[i]?, { m with default_apps := insertAssoc d mime (l.eraseIdx i) })

/-- `MimeApps::get_from_wildcard`: among default-app keys that
glob-match the mime, keep those of maximal key length and return the
first one's handler list. -/
def MimeApps.get_from_wildcard (m : MimeApps) (mime : String) : Option (List String) :=
  let associations := m.default_apps.filter (fun p => wildMatch p.1 mime)
  match (associations.map (fun p => p.1.length)).max? with
  | none => none
  | some biggest =>
    ((associations.filter (fun p => p.1.length == biggest)).map (fun p => p.2)).head?

/-- Rust's `str::trim_end` on the selector output. -/
def trimEnd (s : String) : String :=
  String.mk ((s.data.reverse.dropWhile Char.isWhitespace).reverse)

/-- The `select` function of user.rs: tokenize the selector command, run
the subprocess on the newline-joined options, trim its output, and treat
an empty result as an explicit cancellation. -/
def select (env : Env) (sel : String) (opts : List String) : Except ErrorKind String :=
  match env.shlex sel with
  | none => .error (.badCmd sel)
  | some (cmd, args) =>
    match env.spawn cmd args opts with
    | .error e => .error e
    | .ok raw =>
      let output := trimEnd raw
      if output.data.isEmpty then .error .cancelled else .ok output

/-- `MimeApps::get_handler_from_user`: exact default-app lookup, falling
back to the wildcard lookup; with the selector enabled and more than one
candidate, resolve each candidate's entry name, run the selector, and
return the candidate whose name was chosen; otherwise return the front. -/
def MimeApps.get_handler_from_user (m : MimeApps) (env : Env) (mime sel : String)
    (use_selector : Bool) : Except ErrorKind String :=
  match (List.lookup mime m.default_apps).orElse (fun _ => m.get_from_wildcard mime) with
  | some handlers =>
    if use_selector && handlers.length > 1 then
      match handlers.mapM (fun h => (env.entries h).map (fun e => (h, e.name))) with
      | .error e => .error e
      | .ok hs =>
        match select env sel (hs.map (fun h => h.2)) with
        | .error e => .error e
        | .ok name =>
          match hs.find? (fun h => h.2 == name) with
          | some h => .ok h.1
          | none => .error (.notFound mime)
    else
      match handlers.head? with
      | some h => .ok h
      | none => .error (.notFound mime)
  | none => .error (.notFound mime)

/-- The association file as handed to/produced by the INI layer: per
section, the (mime key, raw value string) lines in order. -/
structure MimeAppsFile where
  added : List (String × String)
  defaults : List (String × String)
deriving DecidableEq

/-- Modelled from the spec: the INI decoding layer (the external serde_ini
crate) maps each `key=value` line of the two sections through
`DesktopList::from_str` (§6 of the spec); `MimeApps::read` then removes
empty default associations, which is the part taken from user.rs. -/
def MimeApps.read (valid : String → Bool) (f : MimeAppsFile) : MimeApps :=
  let parsed : MimeApps :=
    { added_associations := f.added.map (fun p => (p.1, desktopListFromStr valid p.2))
      default_apps := f.defaults.map (fun p => (p.1, desktopListFromStr valid p.2)) }
  { parsed with default_apps := parsed.default_apps.filter (fun p => !p.2.isEmpty) }

/-- Modelled from the spec: the INI encoding layer (the external serde_ini
crate) writes each mapping entry as a `key=value` line whose value is the
`Display` form of the handler list (§6 of the spec). -/
def MimeApps.save (m : MimeApps) : MimeAppsFile :=
  { added := m.added_associations.map (fun p => (p.1, desktopListDisplay p.2))
    defaults := m.default_apps.map (fun p => (p.1, desktopListDisplay p.2)) }

/-- `SystemApps::populate`: for every enumerated desktop entry, append
its file name to the list of every MIME type it declares. -/
def SystemApps.populate (es : List (String × DesktopEntry)) : List (String × List String) :=
  es.foldl
    (fun map e =>
      e.2.mimes.foldl (fun map mime => pushAssoc map mime e.2.file_name) map)
    []

/-- `SystemApps::get_handlers`. -/
def SystemApps.get_handlers (s : List (String × List String)) (mime : String) :
    Option (List String) :=
  List.lookup mime s

/-- `SystemApps::get_handler`: the front of the list, unwrapped.  The
default `""` is reached exactly where the Rust `front().unwrap()` would
panic on an empty list; the populate invariant proves that unreachable. -/
def SystemApps.get_handler (s : List (String × List String)) (mime : String) :
    Option String :=
  (SystemApps.get_handlers s mime).map (fun l => l.headD "")

/-- A regex handler from the config; equality is over the pattern source
strings. -/
structure RegexHandler where
  exec : String
  terminal : Bool
  regexes : List String
deriving DecidableEq

/-- The two handler variants behind one interface. -/
inductive Handler where
  | desktop : String → Handler
  | regex : RegexHandler → Handler
deriving DecidableEq

/-- `RegexHandler::is_match` via the regex engine. -/
def RegexHandler.is_match (h : RegexHandler) (env : Env) (path : String) : Bool :=
  env.regexMatch h.regexes path

/-- `RegexApps::get_handler`: the first configured regex handler whose
pattern set matches the path, else NotFound carrying the path. -/
def RegexApps.get_handler (env : Env) (apps : List RegexHandler) (path : String) :
    Except ErrorKind RegexHandler :=
  match apps.find? (fun a => a.is_match env path) with
  | some a => .ok a
  | none => .error (.notFound path)

/-- The state threaded through resolution: the user associations, the
populated system associations and the configured regex handlers. -/
structure AppsConfig where
  mime_apps : MimeApps
  system_apps : List (String × List String)
  config_handlers : List RegexHandler

/-- `mime.type_()`: the primary type, everything before the slash. -/
def primaryType (mime : String) : String :=
  String.mk (mime.data.takeWhile (fun c => c ≠ '/'))

/-- `AppsConfig::get_handler_from_added_associations`: the front of the
exact added-association entry if one exists, otherwise the system
default; failing both, NotFound carrying the mime. -/
def AppsConfig.get_handler_from_added_associations (c : AppsConfig) (mime : String) :
    Except ErrorKind String :=
  match List.lookup mime c.mime_apps.added_associations with
  | some h =>
    match h.head? with
    | some x => .ok x
    | none => .error (.notFound mime)
  | none =>
    match SystemApps.get_handler c.system_apps mime with
    | some x => .ok x
    | none => .error (.notFound mime)

/-- `AppsConfig::get_handler`: a cancellation from the first user lookup
propagates; any other failure falls back to the `type/*` re-query and
then to the added associations / system default. -/
def AppsConfig.get_handler (c : AppsConfig) (env : Env) (mime sel : String)
    (enable_selector : Bool) : Except ErrorKind String :=
  match c.mime_apps.get_handler_from_user env mime sel enable_selector with
  | .error .cancelled => .error .cancelled
  | h =>
    Except.tryCatch
      (Except.tryCatch h (fun _ =>
        c.mime_apps.get_handler_from_user env (primaryType mime ++ "/*") sel
          enable_selector))
      (fun _ => c.get_handler_from_added_associations mime)

/-- Modelled from the spec: `Config::get_regex_handler` (config.rs is not
under src/) delegates to the regex handler set loaded from the local
configuration, first match wins (§4.4 of the spec). -/
def Config.get_regex_handler (c : AppsConfig) (env : Env) (path : String) :
    Except ErrorKind RegexHandler :=
  RegexApps.get_handler env c.config_handlers path

/-- `AppsConfig::get_handler_from_path`: a regex-handler match takes
precedence; otherwise derive the MIME from the path and resolve by MIME. -/
def AppsConfig.get_handler_from_path (c : AppsConfig) (env : Env) (path sel : String)
    (enable_selector : Bool) : Except ErrorKind Handler :=
  match Config.get_regex_handler c env path with
  | .ok h => .ok (.regex h)
  | .error _ =>
    match env.getMime path with
    | .error e => .error e
    | .ok mime => (c.get_handler env mime sel enable_selector).map Handler.desktop

/-- Append a path to its handler's batch, creating the group at the back
on first sight: `handlers.entry(handler).or_default().push(path)`. -/
def insertGroup : List (Handler × List String) → Handler → String → List (Handler × List String)
  | [], h, p => [(h, [p])]
  | (g, ps) :: rest, h, p =>
    if g == h then (g, ps ++ [p]) :: rest
    else (g, ps) :: insertGroup rest h p

/-- The grouping loop of `AppsConfig::open_paths`: resolve each path,
aborting on the first resolution error, and batch the paths per
handler. -/
def openPathsGo (c : AppsConfig) (env : Env) (sel : String) (u : Bool) :
    List String → List (Handler × List String) → Except ErrorKind (List (Handler × List String))
  | [], acc => .ok acc
  | p :: ps, acc =>
    match c.get_handler_from_path env p sel u with
    | .error e => .error e
    | .ok h => openPathsGo c env sel u ps (insertGroup acc h p)

/-- `AppsConfig::open_paths`, observed as the list of
(handler, path batch) open invocations it performs, one per distinct
resolved handler. -/
def AppsConfig.open_paths (c : AppsConfig) (env : Env) (paths : List String)
    (sel : String) (u : Bool) : Except ErrorKind (List (Handler × List String)) :=
  openPathsGo c env sel u paths []

/-- The batch of paths a grouping assigns to a handler (empty when the
handler has no group). -/
def groupPaths (groups : List (Handler × List String)) (h : Handler) : List String :=
  ((groups.find? (fun g => g.1 == h)).map Prod.snd).getD []

/-- A serialized association value that contains only valid,
non-duplicate, non-degenerate entries: the `Display` form of some
non-empty duplicate-free list of valid semicolon-free names. -/
def WfValue (valid : String → Bool) (v : String) : Prop :=
  ∃ names : List String, names ≠ [] ∧ names.Nodup ∧
    (∀ x ∈ names, x.data ≠ [] ∧ ';' ∉ x.data ∧ valid x = true) ∧
    v = desktopListDisplay names

/-- A concrete environment for the concrete instances: every desktop
entry resolves to a record named after the handler, the selector command
tokenizes to itself, the selector subprocess answers with whitespace only
(a cancellation once trimmed), every path sniffs to text/plain, and no
regex matches. -/
def envT : Env :=
  { entries := fun h =>
      .ok { name := "N" ++ h, exec := "", file_name := h, terminal := false, mimes := [] }
    shlex := fun s => some (s, [])
    spawn := fun _ _ _ => .ok "  "
    getMime := fun _ => .ok "text/plain"
    regexMatch := fun _ _ => false }

/-- Like `envT` but the selector subprocess answers a name that matches
no candidate. -/
def envN : Env :=
  { envT with spawn := fun _ _ _ => .ok "nomatch" }

/-- A configuration whose defaults hold an empty exact entry for a/b and
a two-candidate wildcard entry for a/*, with an added association for
a/b: the first user lookup finds nothing, the type-wildcard re-query is
interactive. -/
def cfgT : AppsConfig :=
  { mime_apps :=
      { added_associations := [("a/b", ["h5"])]
        default_apps := [("a/b", []), ("a/*", ["h1", "h2"])] }
    system_apps := [("a/b", ["x.desktop"])]
    config_handlers := [] }

/-- A configuration with no defaults, an added association for a/b whose
handler list is empty, and a system default for a/b. -/
def cfgC1 : AppsConfig :=
  { mime_apps := { added_associations := [("a/b", [])], default_apps := [] }
    system_apps := [("a/b", ["x.desktop"])]
    config_handlers := [] }

/-- The wildcard-versus-exact scenario of the apps_config.rs test:
video/* is added before video/webm. -/
def mimeAppsWild : MimeApps :=
  (MimeApps.add_handler
    (MimeApps.add_handler { added_associations := [], default_apps := [] }
      "video/*" "mpv.desktop")
    "video/webm" "brave.desktop")

/-- The wildcard-versus-exact scenario wrapped in a full configuration. -/
def cfgWild : AppsConfig :=
  { mime_apps := mimeAppsWild, system_apps := [], config_handlers := [] }

/-- A configuration where every text/plain path resolves to one viewer. -/
def cfgOpen : AppsConfig :=
  { mime_apps :=
      { added_associations := [], default_apps := [("text/plain", ["viewer.desktop"])] }
    system_apps := []
    config_handlers := [] }

/-- A configuration with two tied candidates for a/b. -/
def cfgTie : AppsConfig :=
  { mime_apps := { added_associations := [], default_apps := [("a/b", ["h1", "h2"])] }
    system_apps := []
    config_handlers := [] }

/-- An environment whose regex engine matches a pattern set iff it
contains the path verbatim, for concrete regex-handler instances. -/
def envR : Env :=
  { envT with regexMatch := fun ps path => ps.any (fun r => r == path) }

/-- A concrete regex handler matching exactly the path p1. -/
def rh1 : RegexHandler := { exec := "e1", terminal := false, regexes := ["p1"] }

/-- A second concrete regex handler also matching the path p1. -/
def rh2 : RegexHandler := { exec := "e2", terminal := true, regexes := ["p1", "p2"] }

/-- A configuration carrying the two concrete regex handlers in order. -/
def cfgRegex : AppsConfig :=
  { mime_apps := { added_associations := [], default_apps := [("text/plain", ["viewer.desktop"])] }
    system_apps := []
    config_handlers := [rh1, rh2] }

/-- An association file whose only entry is an added association with no
handlers. -/
def fileC8 : MimeAppsFile := { added := [("a/b", "")], defaults := [] }

/-- A validity check that accepts every handler name. -/
def validAll : String → Bool := fun _ => true

/-- An association file with one valid default entry and one default
entry whose handlers are all invalid under `validOnlyX`. -/
def fileC8b : MimeAppsFile := { added := [], defaults := [("a/b", "x;"), ("c/d", "y;")] }

/-- A validity check that accepts only the handler name x. -/
def validOnlyX : String → Bool := fun s => s == "x"

/-- A well-formed association file for the round-trip instance. -/
def fileRT : MimeAppsFile :=
  { added := [("image/png", "eog.desktop;")]
    defaults := [("video/mp4", "mpv.desktop;vlc.desktop;"), ("text/plain", "nvim.desktop;")] }

/-! ## Helper lemmas -/

theorem lookup_mem {β : Type} {d : List (String × β)} {k : String} {v : β}
    (h : List.lookup k d = some v) : (k, v) ∈ d := by
  rcases List.lookup_eq_some_iff.mp h with ⟨l₁, l₂, rfl, -⟩
  simp

theorem lookup_append_self {β : Type} (d : List (String × β)) (k : String) (v : β)
    (h : List.lookup k d = none) : List.lookup k (d ++ [(k, v)]) = some v := by
  rw [List.lookup_append, h]
  simp

/-! ## C9 -/

/-- C9: `remove_handler` on a MIME with no existing default association
does not error, removes nothing, and leaves behind a freshly created
empty (prunable) default-association entry for that MIME. -/
theorem remove_handler_no_entry (m : MimeApps) (mime handler : String)
    (h : List.lookup mime m.default_apps = none) :
    (m.remove_handler mime handler).1 = none ∧
    (m.remove_handler mime handler).2 =
      { m with default_apps := m.default_apps ++ [(mime, [])] } ∧
    List.lookup mime (m.remove_handler mime handler).2.default_apps = some [] := by
  have hd : entryOrDefault m.default_apps mime = m.default_apps ++ [(mime, [])] := by
    simp [entryOrDefault, h]
  have hl : List.lookup mime (m.default_apps ++ [(mime, [])]) = some [] :=
    lookup_append_self _ _ _ h
  simp [MimeApps.remove_handler, hd, hl]

/-- C9 witness: removing from a fresh store. -/
theorem remove_handler_no_entry_witness :
    List.lookup "a/b" (MimeApps.added_associations { added_associations := [], default_apps := [] }) = none ∧
    (MimeApps.remove_handler { added_associations := [], default_apps := [] } "a/b" "x.desktop").1 = none ∧
    List.lookup "a/b"
      (MimeApps.remove_handler { added_associations := [], default_apps := [] } "a/b" "x.desktop").2.default_apps =
      some [] := by
  refine ⟨by decide, ?_, ?_⟩
  · exact (remove_handler_no_entry { added_associations := [], default_apps := [] } "a/b" "x.desktop" (by decide)).1
  · exact (remove_handler_no_entry { added_associations := [], default_apps := [] } "a/b" "x.desktop" (by decide)).2.2

/-! ## C10 -/

theorem pushAssoc_nonempty (d : List (String × List String)) (k v : String)
    (hd : ∀ p ∈ d, p.2 ≠ []) : ∀ p ∈ pushAssoc d k v, p.2 ≠ [] := by
  induction d with
  | nil =>
    intro p hp
    simp [pushAssoc] at hp
    simp [hp]
  | cons q rest ih =>
    obtain ⟨k', l⟩ := q
    intro p hp
    simp only [pushAssoc] at hp
    by_cases hk : (k' == k) = true
    · simp only [hk, if_true] at hp
      rcases List.mem_cons.mp hp with hp | hp
      · subst hp
        simp
      · exact hd p (List.mem_cons_of_mem _ hp)
    · simp only [hk, if_false] at hp
      rcases List.mem_cons.mp hp with hp | hp
      · subst hp
        exact hd (k', l) (List.mem_cons_self _ _)
      · exact ih (fun r hr => hd r (List.mem_cons_of_mem _ hr)) p hp

theorem foldl_pushAssoc_nonempty (mimes : List String) (fn : String)
    (d : List (String × List String)) (hd : ∀ p ∈ d, p.2 ≠ []) :
    ∀ p ∈ mimes.foldl (fun map mime => pushAssoc map mime fn) d, p.2 ≠ [] := by
  induction mimes generalizing d with
  | nil => simpa using hd
  | cons mm ms ih =>
    intro p hp
    rw [List.foldl_cons] at hp
    exact ih (pushAssoc d mm fn) (pushAssoc_nonempty d mm fn hd) p hp

theorem populate_nonempty (es : List (String × DesktopEntry)) :
    ∀ p ∈ SystemApps.populate es, p.2 ≠ [] := by
  suffices h : ∀ (es : List (String × DesktopEntry)) (d : List (String × List String)),
      (∀ p ∈ d, p.2 ≠ []) →
      ∀ p ∈ es.foldl
        (fun map e => e.2.mimes.foldl (fun map mime => pushAssoc map mime e.2.file_name) map) d,
        p.2 ≠ [] by
    exact h es [] (by simp)
  intro es
  induction es with
  | nil => intro d hd; simpa using hd
  | cons e rest ih =>
    intro d hd p hp
    rw [List.foldl_cons] at hp
    exact ih _ (foldl_pushAssoc_nonempty e.2.mimes e.2.file_name d hd) p hp

/-- C10: every handler list stored by `populate` is non-empty, so
`SystemApps::get_handler` never reaches the panicking unwrap of the front
element: for every MIME it totally returns the front of a present
non-empty list, or nothing when the MIME is absent. -/
theorem system_get_handler_total (es : List (String × DesktopEntry)) (mime : String) :
    (∀ l, SystemApps.get_handlers (SystemApps.populate es) mime = some l →
      ∃ x xs, l = x :: xs ∧
        SystemApps.get_handler (SystemApps.populate es) mime = some x) ∧
    (SystemApps.get_handlers (SystemApps.populate es) mime = none →
      SystemApps.get_handler (SystemApps.populate es) mime = none) := by
  constructor
  · intro l hl
    have hmem : (mime, l) ∈ SystemApps.populate es := lookup_mem hl
    have hne : l ≠ [] := populate_nonempty es (mime, l) hmem
    match l, hne with
    | x :: xs, _ =>
      exact ⟨x, xs, rfl, by simp [SystemApps.get_handler, hl]⟩
  · intro h
    simp [SystemApps.get_handler, h]

/-- C10 witness: a populated store with one entry declaring two MIMEs. -/
theorem system_get_handler_total_witness :
    SystemApps.get_handlers
        (SystemApps.populate
          [("f", { name := "A", exec := "a", file_name := "a.desktop", terminal := false,
                   mimes := ["text/plain", "text/html"] })]) "text/plain" =
      some ["a.desktop"] ∧
    SystemApps.get_handler
        (SystemApps.populate
          [("f", { name := "A", exec := "a", file_name := "a.desktop", terminal := false,
                   mimes := ["text/plain", "text/html"] })]) "text/plain" =
      some "a.desktop" := by
  refine ⟨by decide, ?_⟩
  rcases (system_get_handler_total
      [("f", { name := "A", exec := "a", file_name := "a.desktop", terminal := false,
               mimes := ["text/plain", "text/html"] })] "text/plain").1
      ["a.desktop"] (by decide) with ⟨x, xs, hxs, hx⟩
  injection hxs with h1 h2
  rw [← h1] at hx
  exact hx

/-! ## C4 -/

/-- C4: a present exact default-association entry always wins: resolving
such a MIME (without the selector) returns the front of the exact entry's
list and never consults the wildcard machinery, regardless of which
association was added first. -/
theorem exact_beats_wildcard (m : MimeApps) (env : Env) (mime sel : String)
    (x : String) (xs : List String)
    (h : List.lookup mime m.default_apps = some (x :: xs)) :
    m.get_handler_from_user env mime sel false = .ok x ∧
    (∀ u, m.get_handler_from_user env mime sel u =
      MimeApps.get_handler_from_user
        { added_associations := m.added_associations, default_apps := [(mime, x :: xs)] }
        env mime sel u) := by
  have h2 : List.lookup mime [(mime, x :: xs)] = some (x :: xs) := by simp
  constructor
  · simp [MimeApps.get_handler_from_user, h, Option.orElse]
  · intro u
    simp only [MimeApps.get_handler_from_user, h, h2, Option.orElse]

/-- C4 witness: the video scenario of the apps_config.rs test, with the
wildcard added first; webm resolves to the exact entry, mp4 and asdf to
the wildcard. -/
theorem exact_beats_wildcard_witness :
    List.lookup "video/webm" mimeAppsWild.default_apps = some ["brave.desktop"] ∧
    mimeAppsWild.get_handler_from_user envT "video/webm" "" false = .ok "brave.desktop" ∧
    cfgWild.get_handler envT "video/webm" "" false = .ok "brave.desktop" ∧
    cfgWild.get_handler envT "video/mp4" "" false = .ok "mpv.desktop" ∧
    cfgWild.get_handler envT "video/asdf" "" false = .ok "mpv.desktop" := by
  refine ⟨by decide, ?_, by decide, by decide, by decide⟩
  exact (exact_beats_wildcard mimeAppsWild envT "video/webm" "" "brave.desktop" []
    (by decide)).1

/-! ## C8 -/

/-- C8 counterexample: reading a file whose added section maps a/b to an
empty handler list leaves the empty mapping in the loaded associations;
it is not pruned (only default associations are pruned). -/
theorem read_keeps_empty_added :
    (MimeApps.read validAll fileC8).added_associations = [("a/b", [])] ∧
    (MimeApps.read validAll fileC8).default_apps = [] := by
  constructor <;> rfl

/-- C8 amended: after `read`, every pruned mapping of the default
applications has a non-empty handler list (the pruning applies to the
default associations only; added associations may keep empty lists, as
the counterexample shows). -/
theorem read_prunes_empty_defaults (valid : String → Bool) (f : MimeAppsFile) :
    ∀ p ∈ (MimeApps.read valid f).default_apps, p.2 ≠ [] := by
  intro p hp
  have := (List.mem_filter.mp hp).2
  simpa using this

/-- C8 amended witness: an entry with only invalid handlers is pruned
from the defaults, the valid one stays non-empty. -/
theorem read_prunes_empty_defaults_witness :
    (MimeApps.read validOnlyX fileC8b).default_apps = [("a/b", ["x"])] ∧
    ("a/b", ["x"]) ∈ (MimeApps.read validOnlyX fileC8b).default_apps ∧
    (["x"] : List String) ≠ [] := by
  refine ⟨by decide, by decide, ?_⟩
  exact read_prunes_empty_defaults validOnlyX fileC8b ("a/b", ["x"]) (by decide)

/-! ## C3 -/

/-- C3: `get_from_wildcard` returns nothing exactly when no
default-association key glob-matches the mime; otherwise it returns the
handler list of some single matching key of maximal character length
(ties still yield a candidate, never an error). -/
theorem get_from_wildcard_spec (m : MimeApps) (mime : String) :
    (m.get_from_wildcard mime = none ↔
      ∀ p ∈ m.default_apps, wildMatch p.1 mime = false) ∧
    (∀ l, m.get_from_wildcard mime = some l →
      ∃ p, p ∈ m.default_apps ∧ p.2 = l ∧ wildMatch p.1 mime = true ∧
        ∀ q ∈ m.default_apps, wildMatch q.1 mime = true →
          q.1.length ≤ p.1.length) := by
  have hbody : m.get_from_wildcard mime =
      match ((m.default_apps.filter (fun p => wildMatch p.1 mime)).map
          (fun p => p.1.length)).max? with
      | none => none
      | some biggest =>
        (((m.default_apps.filter (fun p => wildMatch p.1 mime)).filter
            (fun p => p.1.length == biggest)).map (fun p => p.2)).head? := rfl
  cases hmax : ((m.default_apps.filter (fun p => wildMatch p.1 mime)).map
      (fun p => p.1.length)).max? with
  | none =>
    have hAnil : m.default_apps.filter (fun p => wildMatch p.1 mime) = [] :=
      List.map_eq_nil_iff.mp (List.max?_eq_none_iff.mp hmax)
    have hres : m.get_from_wildcard mime = none := by
      rw [hbody, hmax]
    have hnomatch : ∀ p ∈ m.default_apps, wildMatch p.1 mime = false := by
      intro p hp
      by_contra hw
      have hpA : p ∈ m.default_apps.filter (fun p => wildMatch p.1 mime) :=
        List.mem_filter.mpr ⟨hp, by simpa using hw⟩
      rw [hAnil] at hpA
      simp at hpA
    refine ⟨⟨fun _ => hnomatch, fun _ => hres⟩, ?_⟩
    intro l hl
    rw [hres] at hl
    cases hl
  | some biggest =>
    have hbig_mem : biggest ∈ (m.default_apps.filter (fun p => wildMatch p.1 mime)).map
        (fun p => p.1.length) :=
      List.max?_mem (fun a b => max_choice a b) hmax
    have hbig_le : ∀ n ∈ (m.default_apps.filter (fun p => wildMatch p.1 mime)).map
        (fun p => p.1.length), n ≤ biggest :=
      (List.max?_le_iff (fun a b c => max_le_iff) hmax).mp (le_refl biggest)
    rcases List.mem_map.mp hbig_mem with ⟨p0, hp0A, hp0len⟩
    have hp0F : p0 ∈ (m.default_apps.filter (fun p => wildMatch p.1 mime)).filter
        (fun p => p.1.length == biggest) :=
      List.mem_filter.mpr ⟨hp0A, by simpa using hp0len⟩
    cases hF : (m.default_apps.filter (fun p => wildMatch p.1 mime)).filter
        (fun p => p.1.length == biggest) with
    | nil =>
      rw [hF] at hp0F
      simp at hp0F
    | cons f fs =>
      have hres : m.get_from_wildcard mime = some f.2 := by
        rw [hbody, hmax]
        show (List.map (fun p => p.2)
            (List.filter (fun p => p.1.length == biggest)
              (List.filter (fun p => wildMatch p.1 mime) m.default_apps))).head? = some f.2
        rw [hF]
        simp
      have hfF : f ∈ (m.default_apps.filter (fun p => wildMatch p.1 mime)).filter
          (fun p => p.1.length == biggest) := by
        rw [hF]
        exact List.mem_cons_self _ _
      have hfA := (List.mem_filter.mp hfF).1
      have hflen : f.1.length = biggest := by
        have := (List.mem_filter.mp hfF).2
        simpa using this
      have hfd := (List.mem_filter.mp hfA).1
      have hfw : wildMatch f.1 mime = true := by
        have := (List.mem_filter.mp hfA).2
        simpa using this
      have hmaxprop : ∀ q ∈ m.default_apps, wildMatch q.1 mime = true →
          q.1.length ≤ f.1.length := by
        intro q hq hqw
        have hqA : q ∈ m.default_apps.filter (fun p => wildMatch p.1 mime) :=
          List.mem_filter.mpr ⟨hq, by simpa using hqw⟩
        have := hbig_le q.1.length (List.mem_map.mpr ⟨q, hqA, rfl⟩)
        rw [hflen]
        exact this
      constructor
      · constructor
        · intro habs
          rw [hres] at habs
          cases habs
        · intro hall
          have := hall f hfd
          rw [hfw] at this
          exact Bool.noConfusion this
      · intro l hl
        rw [hres] at hl
        injection hl with hl2
        exact ⟨f, hfd, hl2, hfw, hmaxprop⟩

/-- C3 witness: two wildcard patterns of different lengths both match
video/webm; the longer one wins, and a mime matching nothing yields
nothing. -/
theorem get_from_wildcard_spec_witness :
    (MimeApps.get_from_wildcard
        { added_associations := [], default_apps := [("video/*", ["a"]), ("video/w*", ["b"])] }
        "video/webm" = some ["b"]) ∧
    (∃ p, p ∈ [("video/*", ["a"]), ("video/w*", ["b"])] ∧ p.2 = ["b"] ∧
      wildMatch p.1 "video/webm" = true ∧
      ∀ q ∈ [("video/*", ["a"]), ("video/w*", ["b"])],
        wildMatch q.1 "video/webm" = true → q.1.length ≤ p.1.length) ∧
    (MimeApps.get_from_wildcard
        { added_associations := [], default_apps := [("video/*", ["a"]), ("video/w*", ["b"])] }
        "audio/ogg" = none ↔
      ∀ p ∈ [("video/*", ["a"]), ("video/w*", ["b"])],
        wildMatch p.1 "audio/ogg" = false) := by
  refine ⟨by decide, ?_, ?_⟩
  · exact (get_from_wildcard_spec
      { added_associations := [], default_apps := [("video/*", ["a"]), ("video/w*", ["b"])] }
      "video/webm").2 ["b"] (by decide)
  · exact (get_from_wildcard_spec
      { added_associations := [], default_apps := [("video/*", ["a"]), ("video/w*", ["b"])] }
      "audio/ogg").1

/-! ## C5 -/

theorem splitSemi_ne_nil (cs : List Char) : splitSemi cs ≠ [] := by
  cases cs with
  | nil => simp [splitSemi]
  | cons c cs =>
    cases h : splitSemi cs with
    | nil => simp [splitSemi, h]
    | cons r rs =>
      simp only [splitSemi, h]
      split <;> simp

theorem splitSemi_semi (cs : List Char) : splitSemi (';' :: cs) = [] :: splitSemi cs := by
  cases h : splitSemi cs with
  | nil => exact absurd h (splitSemi_ne_nil cs)
  | cons r rs => simp [splitSemi, h]

theorem splitSemi_cons_noSemi (c : Char) (hc : c ≠ ';') (cs : List Char) :
    splitSemi (c :: cs) = (c :: (splitSemi cs).headD []) :: (splitSemi cs).tail := by
  cases h : splitSemi cs with
  | nil => exact absurd h (splitSemi_ne_nil cs)
  | cons r rs => simp [splitSemi, h, hc]

theorem splitSemi_append_noSemi (l : List Char) (hl : ∀ c ∈ l, c ≠ ';') (cs : List Char) :
    splitSemi (l ++ cs) = (l ++ (splitSemi cs).headD []) :: (splitSemi cs).tail := by
  induction l with
  | nil =>
    simp only [List.nil_append]
    cases h : splitSemi cs with
    | nil => exact absurd h (splitSemi_ne_nil cs)
    | cons r rs => simp
  | cons c l ih =>
    have hc : c ≠ ';' := hl c (List.mem_cons_self _ _)
    rw [List.cons_append, splitSemi_cons_noSemi c hc,
      ih (fun d hd => hl d (List.mem_cons_of_mem _ hd))]
    simp

theorem parse_display_names (names : List String)
    (h : ∀ x ∈ names, x.data ≠ [] ∧ ';' ∉ x.data) :
    (splitSemi (desktopListDisplay names).data).filter (fun l => !l.isEmpty) =
      names.map String.data := by
  induction names with
  | nil => rfl
  | cons x xs ih =>
    have hx := h x (List.mem_cons_self _ _)
    have hxs : ∀ y ∈ xs, y.data ≠ [] ∧ ';' ∉ y.data :=
      fun y hy => h y (List.mem_cons_of_mem _ hy)
    have hnos : ∀ c ∈ x.data, c ≠ ';' := fun c hc he => hx.2 (he ▸ hc)
    cases xs with
    | nil =>
      show (splitSemi ((x ++ ";").data)).filter (fun l => !l.isEmpty) = [x.data]
      rw [String.data_append]
      have : (";" : String).data = [';'] := rfl
      rw [this, splitSemi_append_noSemi x.data hnos [';']]
      have h2 : splitSemi [';'] = [[], []] := rfl
      rw [h2]
      simp [hx.1]
    | cons y ys =>
      have hj : joinSemi (x :: y :: ys) = x ++ ";" ++ joinSemi (y :: ys) := rfl
      have hstep : (desktopListDisplay (x :: y :: ys)).data =
          x.data ++ ';' :: (desktopListDisplay (y :: ys)).data := by
        show ((joinSemi (x :: y :: ys)) ++ ";").data = _
        rw [hj]
        show (x ++ ";" ++ joinSemi (y :: ys) ++ ";").data =
          x.data ++ ';' :: ((joinSemi (y :: ys) ++ ";")).data
        simp [String.data_append]
      have hxe : (!x.data.isEmpty) = true := by
        simp [hx.1, List.isEmpty_iff]
      rw [hstep, splitSemi_append_noSemi x.data hnos, splitSemi_semi]
      simp only [List.headD_cons, List.tail_cons, List.append_nil, List.filter_cons, hxe]
      simp [ih hxs]

theorem uniqueFrom_eq_self : ∀ (names seen : List String), names.Nodup →
    (∀ x ∈ names, seen.contains x = false) → uniqueFrom seen names = names := by
  intro names
  induction names with
  | nil => intro seen _ _; rfl
  | cons x xs ih =>
    intro seen hnd hs
    have h0 : seen.contains x = false := hs x (List.mem_cons_self _ _)
    simp only [uniqueFrom, h0, Bool.false_eq_true, if_false]
    congr 1
    apply ih (x :: seen) (List.Nodup.of_cons hnd)
    intro y hy
    have h1 : seen.contains y = false := hs y (List.mem_cons_of_mem _ hy)
    have h2 : y ≠ x := fun he => (List.nodup_cons.mp hnd).1 (he ▸ hy)
    have h3 : y ∉ seen := by simpa using h1
    simp [List.contains_cons, h2, Ne.symm h2, h3]

theorem map_eq_self_of {α : Type} (l : List α) (g : α → α) (h : ∀ x ∈ l, g x = x) :
    l.map g = l := by
  induction l with
  | nil => rfl
  | cons x xs ih =>
    rw [List.map_cons, h x (List.mem_cons_self _ _), ih (fun y hy => h y (List.mem_cons_of_mem _ hy))]

theorem fromStr_display (valid : String → Bool) (names : List String)
    (hx : ∀ x ∈ names, x.data ≠ [] ∧ ';' ∉ x.data ∧ valid x = true)
    (hnd : names.Nodup) :
    desktopListFromStr valid (desktopListDisplay names) = names := by
  unfold desktopListFromStr
  rw [parse_display_names names (fun x h => ⟨(hx x h).1, (hx x h).2.1⟩)]
  have hmk : (names.map String.data).map (fun l => String.mk l) = names := by
    rw [List.map_map]
    exact map_eq_self_of names _ (fun x _ => rfl)
  rw [hmk, uniqueFrom_eq_self names [] hnd (by simp)]
  exact List.filter_eq_self.mpr (fun x h => (hx x h).2.2)

theorem display_getLast (l : List String) :
    (desktopListDisplay l).data.getLast? = some ';' := by
  show ((joinSemi l ++ ";").data).getLast? = some ';'
  rw [String.data_append]
  have : (";" : String).data = [';'] := rfl
  rw [this]
  exact List.getLast?_concat _

/-- C5: parsing a well-formed association file and serializing it back
reproduces the file: both mappings' keys are preserved, every handler
list keeps its relative order, and every serialized value ends with a
trailing semicolon (the last conjunct for every store whatsoever). -/
theorem save_read_roundtrip (valid : String → Bool) (f : MimeAppsFile)
    (ha : ∀ p ∈ f.added, WfValue valid p.2)
    (hd : ∀ p ∈ f.defaults, WfValue valid p.2) :
    MimeApps.save (MimeApps.read valid f) = f ∧
    (∀ (m : MimeApps) (p : String × String),
      p ∈ (MimeApps.save m).added ++ (MimeApps.save m).defaults →
      p.2.data.getLast? = some ';') := by
  constructor
  · obtain ⟨fa, fd⟩ := f
    have hround : ∀ (p : String × String), WfValue valid p.2 →
        desktopListDisplay (desktopListFromStr valid p.2) = p.2 := by
      rintro p ⟨names, -, hnd2, hvals, hv⟩
      rw [hv, fromStr_display valid names hvals hnd2]
    have hne : ∀ (p : String × String), WfValue valid p.2 →
        desktopListFromStr valid p.2 ≠ [] := by
      rintro p ⟨names, hne1, hnd2, hvals, hv⟩
      rw [hv, fromStr_display valid names hvals hnd2]
      exact hne1
    have hfilter : (fd.map (fun p => (p.1, desktopListFromStr valid p.2))).filter
        (fun p => !p.2.isEmpty) = fd.map (fun p => (p.1, desktopListFromStr valid p.2)) := by
      apply List.filter_eq_self.mpr
      intro q hq
      rcases List.mem_map.mp hq with ⟨p, hp, rfl⟩
      have := hne p (hd p hp)
      simpa [List.isEmpty_iff] using this
    show MimeApps.save
        { added_associations := fa.map (fun p => (p.1, desktopListFromStr valid p.2))
          default_apps := (fd.map (fun p => (p.1, desktopListFromStr valid p.2))).filter
            (fun p => !p.2.isEmpty) } = ⟨fa, fd⟩
    rw [hfilter]
    show (⟨(fa.map (fun p => (p.1, desktopListFromStr valid p.2))).map
        (fun p => (p.1, desktopListDisplay p.2)),
      (fd.map (fun p => (p.1, desktopListFromStr valid p.2))).map
        (fun p => (p.1, desktopListDisplay p.2))⟩ : MimeAppsFile) = ⟨fa, fd⟩
    rw [List.map_map, List.map_map]
    have hida : fa.map ((fun p => (p.1, desktopListDisplay p.2)) ∘
        (fun p => (p.1, desktopListFromStr valid p.2))) = fa := by
      apply map_eq_self_of
      intro p hp
      show (p.1, desktopListDisplay (desktopListFromStr valid p.2)) = p
      rw [hround p (ha p hp)]
    have hidd : fd.map ((fun p => (p.1, desktopListDisplay p.2)) ∘
        (fun p => (p.1, desktopListFromStr valid p.2))) = fd := by
      apply map_eq_self_of
      intro p hp
      show (p.1, desktopListDisplay (desktopListFromStr valid p.2)) = p
      rw [hround p (hd p hp)]
    rw [hida, hidd]
  · intro m p hp
    rcases List.mem_append.mp hp with hp | hp <;>
      rcases List.mem_map.mp hp with ⟨q, -, rfl⟩ <;>
      exact display_getLast q.2

/-- C5 witness: a three-entry file round-trips byte for byte. -/
theorem save_read_roundtrip_witness :
    MimeApps.save (MimeApps.read validAll fileRT) = fileRT := by
  have h := save_read_roundtrip validAll fileRT ?ha ?hd
  · exact h.1
  case ha =>
    intro p hp
    simp only [fileRT, List.mem_cons, List.not_mem_nil, or_false] at hp
    subst hp
    exact ⟨["eog.desktop"], by decide, by decide, by decide, by decide⟩
  case hd =>
    intro p hp
    simp only [fileRT, List.mem_cons, List.not_mem_nil, or_false] at hp
    rcases hp with hp | hp
    · subst hp
      exact ⟨["mpv.desktop", "vlc.desktop"], by decide, by decide, by decide, by decide⟩
    · subst hp
      exact ⟨["nvim.desktop"], by decide, by decide, by decide, by decide⟩

/-! ## C6 -/

theorem mem_fst_insertGroup (acc : List (Handler × List String)) (h : Handler) (p : String)
    (a : Handler) :
    a ∈ (insertGroup acc h p).map Prod.fst ↔ a ∈ acc.map Prod.fst ∨ a = h := by
  induction acc with
  | nil => simp [insertGroup]
  | cons q rest ih =>
    obtain ⟨g, ps⟩ := q
    simp only [insertGroup]
    by_cases hg : g = h
    · subst hg
      simp only [beq_self_eq_true, if_true, List.map_cons, List.mem_cons]
      constructor
      · rintro (rfl | hm)
        · exact Or.inl (Or.inl rfl)
        · exact Or.inl (Or.inr hm)
      · rintro ((rfl | hm) | rfl)
        · exact Or.inl rfl
        · exact Or.inr hm
        · exact Or.inl rfl
    · have hgb : (g == h) = false := by simpa using hg
      simp only [hgb, Bool.false_eq_true, if_false, List.map_cons, List.mem_cons, ih]
      tauto

theorem insertGroup_fst_nodup (acc : List (Handler × List String)) (h : Handler) (p : String)
    (hacc : (acc.map Prod.fst).Nodup) : ((insertGroup acc h p).map Prod.fst).Nodup := by
  induction acc with
  | nil => simp [insertGroup]
  | cons q rest ih =>
    obtain ⟨g, ps⟩ := q
    simp only [List.map_cons, List.nodup_cons] at hacc
    simp only [insertGroup]
    by_cases hg : g = h
    · subst hg
      simp only [beq_self_eq_true, if_true, List.map_cons, List.nodup_cons]
      exact hacc
    · have hgb : (g == h) = false := by simpa using hg
      simp only [hgb, Bool.false_eq_true, if_false, List.map_cons, List.nodup_cons]
      refine ⟨?_, ih hacc.2⟩
      rw [mem_fst_insertGroup]
      rintro (hm | rfl)
      · exact hacc.1 hm
      · exact hg rfl

theorem groupPaths_insertGroup_self (acc : List (Handler × List String)) (h : Handler)
    (p : String) : groupPaths (insertGroup acc h p) h = groupPaths acc h ++ [p] := by
  induction acc with
  | nil => simp [insertGroup, groupPaths]
  | cons q rest ih =>
    obtain ⟨g, ps⟩ := q
    simp only [insertGroup]
    by_cases hg : g = h
    · subst hg
      simp [groupPaths]
    · have hgb : (g == h) = false := by simpa using hg
      simp only [hgb, Bool.false_eq_true, if_false]
      simp only [groupPaths, List.find?_cons, hgb] at ih ⊢
      exact ih

theorem groupPaths_insertGroup_ne (acc : List (Handler × List String)) (h h' : Handler)
    (p : String) (hne : h' ≠ h) :
    groupPaths (insertGroup acc h p) h' = groupPaths acc h' := by
  induction acc with
  | nil =>
    have : (h == h') = false := by simpa using (Ne.symm hne)
    simp [insertGroup, groupPaths, this]
  | cons q rest ih =>
    obtain ⟨g, ps⟩ := q
    simp only [insertGroup]
    by_cases hg : g = h
    · have hgb : (g == h) = true := by simpa using hg
      simp only [hgb, if_true]
      have hgh : (g == h') = false := by
        have : g ≠ h' := fun he => hne (he ▸ hg)
        simpa using this
      simp only [groupPaths, List.find?_cons, hgh]
    · have hgb : (g == h) = false := by simpa using hg
      simp only [hgb, Bool.false_eq_true, if_false]
      simp only [groupPaths, List.find?_cons]
      cases hgh : (g == h') with
      | true => rfl
      | false => exact ih

theorem find?_of_mem_fst_nodup (groups : List (Handler × List String)) (h : Handler)
    (ps : List String) (hnd : (groups.map Prod.fst).Nodup) (hm : (h, ps) ∈ groups) :
    groups.find? (fun g => g.1 == h) = some (h, ps) := by
  induction groups with
  | nil => simp at hm
  | cons q rest ih =>
    obtain ⟨g, qs⟩ := q
    simp only [List.map_cons, List.nodup_cons] at hnd
    rcases List.mem_cons.mp hm with hq | hq
    · injection hq with h1 h2
      subst h1
      subst h2
      simp [List.find?_cons]
    · have hgh : (g == h) = false := by
        have : h ∈ rest.map Prod.fst := List.mem_map.mpr ⟨(h, ps), hq, rfl⟩
        have hne : g ≠ h := fun he => hnd.1 (he ▸ this)
        simpa using hne
      simp only [List.find?_cons, hgh]
      exact ih hnd.2 hq

theorem openPathsGo_spec (c : AppsConfig) (env : Env) (sel : String) (u : Bool) :
    ∀ (rem : List String) (acc groups : List (Handler × List String)),
    openPathsGo c env sel u rem acc = .ok groups →
    ((acc.map Prod.fst).Nodup → (groups.map Prod.fst).Nodup) ∧
    (∀ h, groupPaths groups h =
      groupPaths acc h ++
        rem.filter (fun p => c.get_handler_from_path env p sel u == .ok h)) := by
  intro rem
  induction rem with
  | nil =>
    intro acc groups hok
    simp only [openPathsGo] at hok
    injection hok with hok
    subst hok
    exact ⟨id, fun h => by simp⟩
  | cons p ps ih =>
    intro acc groups hok
    simp only [openPathsGo] at hok
    cases hres : c.get_handler_from_path env p sel u with
    | error e =>
      rw [hres] at hok
      cases hok
    | ok h0 =>
      rw [hres] at hok
      obtain ⟨hnd, hgp⟩ := ih (insertGroup acc h0 p) groups hok
      refine ⟨fun hacc => hnd (insertGroup_fst_nodup acc h0 p hacc), ?_⟩
      intro h
      rw [hgp h, List.filter_cons]
      by_cases heq : h0 = h
      · subst heq
        rw [groupPaths_insertGroup_self]
        have : (c.get_handler_from_path env p sel u == Except.ok h0) = true := by
          rw [hres]
          simp
        rw [this]
        simp
      · rw [groupPaths_insertGroup_ne acc h0 h p (Ne.symm heq)]
        have : (c.get_handler_from_path env p sel u == Except.ok h) = true → False := by
          rw [hres]
          intro hb
          exact heq (by simpa using hb)
        have hfalse : (c.get_handler_from_path env p sel u == Except.ok h) = false := by
          cases hb : (c.get_handler_from_path env p sel u == Except.ok h) with
          | true => exact absurd hb this
          | false => rfl
        rw [hfalse]
        simp

/-- C6: when `open_paths` succeeds, it performs exactly one open
invocation per distinct resolved handler (the invoked handlers are
pairwise distinct), the batch of every invocation is exactly the full
sub-list of the input paths that resolve to that handler in input order,
and every input path lands in its resolved handler's single batch. -/
theorem open_paths_batches (c : AppsConfig) (env : Env) (paths : List String)
    (sel : String) (u : Bool) (groups : List (Handler × List String))
    (hok : c.open_paths env paths sel u = .ok groups) :
    (groups.map Prod.fst).Nodup ∧
    (∀ h ps, (h, ps) ∈ groups →
      ps = paths.filter (fun p => c.get_handler_from_path env p sel u == .ok h)) ∧
    (∀ h p, p ∈ paths → c.get_handler_from_path env p sel u = .ok h →
      ∃ ps, (h, ps) ∈ groups ∧ p ∈ ps) := by
  obtain ⟨hnd, hgp⟩ := openPathsGo_spec c env sel u paths [] groups hok
  have hnodup : (groups.map Prod.fst).Nodup := hnd (by simp)
  have hgroup : ∀ h, groupPaths groups h =
      paths.filter (fun p => c.get_handler_from_path env p sel u == .ok h) := by
    intro h
    have := hgp h
    simpa [groupPaths] using this
  refine ⟨hnodup, ?_, ?_⟩
  · intro h ps hm
    have hfind := find?_of_mem_fst_nodup groups h ps hnodup hm
    have : groupPaths groups h = ps := by
      simp [groupPaths, hfind]
    rw [← this, hgroup h]
  · intro h p hp hres
    have hmem : p ∈ paths.filter (fun p => c.get_handler_from_path env p sel u == .ok h) :=
      List.mem_filter.mpr ⟨hp, by rw [hres]; simp⟩
    rw [← hgroup h] at hmem
    cases hfind : groups.find? (fun g => g.1 == h) with
    | none =>
      rw [groupPaths, hfind] at hmem
      simp at hmem
    | some q =>
      have hq1 : q.1 = h := by
        have := List.find?_some hfind
        simpa using this
      have hqmem : q ∈ groups := List.mem_of_find?_eq_some hfind
      refine ⟨q.2, ?_, ?_⟩
      · rw [← hq1]
        exact hqmem
      · rw [groupPaths, hfind] at hmem
        simpa using hmem

/-- C6 witness: five paths resolving to one viewer produce exactly one
invocation carrying all five paths. -/
theorem open_paths_batches_witness :
    cfgOpen.open_paths envT ["a", "b", "c", "d", "e"] "" false =
      .ok [(Handler.desktop "viewer.desktop", ["a", "b", "c", "d", "e"])] ∧
    ([(Handler.desktop "viewer.desktop", ["a", "b", "c", "d", "e"])].map
        Prod.fst).Nodup ∧
    (["a", "b", "c", "d", "e"] : List String) =
      (["a", "b", "c", "d", "e"] : List String).filter
        (fun p => cfgOpen.get_handler_from_path envT p "" false ==
          .ok (Handler.desktop "viewer.desktop")) := by
  refine ⟨by decide, ?_, ?_⟩
  · exact (open_paths_batches cfgOpen envT ["a", "b", "c", "d", "e"] "" false
      [(Handler.desktop "viewer.desktop", ["a", "b", "c", "d", "e"])] (by decide)).1
  · exact ((open_paths_batches cfgOpen envT ["a", "b", "c", "d", "e"] "" false
      [(Handler.desktop "viewer.desktop", ["a", "b", "c", "d", "e"])] (by decide)).2.1
      (Handler.desktop "viewer.desktop") ["a", "b", "c", "d", "e"] (by decide))

/-! ## C7 -/

/-- C7: a first regex-handler match (in configuration order) wins and is
returned as the handler, taking precedence over MIME resolution; when no
regex handler matches, the regex lookup fails with NotFound carrying the
path and `get_handler_from_path` resolves by the MIME derived from the
path. -/
theorem regex_precedence (c : AppsConfig) (env : Env) (path sel : String) (u : Bool) :
    (∀ rh, c.config_handlers.find? (fun a => a.is_match env path) = some rh →
      rh ∈ c.config_handlers ∧ rh.is_match env path = true ∧
      c.get_handler_from_path env path sel u = .ok (.regex rh)) ∧
    ((∀ a ∈ c.config_handlers, a.is_match env path = false) →
      Config.get_regex_handler c env path = .error (.notFound path) ∧
      c.get_handler_from_path env path sel u =
        (match env.getMime path with
         | .error e => .error e
         | .ok mime => (c.get_handler env mime sel u).map Handler.desktop)) := by
  constructor
  · intro rh hf
    refine ⟨List.mem_of_find?_eq_some hf, by simpa using List.find?_some hf, ?_⟩
    simp only [AppsConfig.get_handler_from_path, Config.get_regex_handler,
      RegexApps.get_handler, hf]
  · intro hnone
    have hf : c.config_handlers.find? (fun a => a.is_match env path) = none := by
      rw [List.find?_eq_none]
      intro a ha
      simp [hnone a ha]
    constructor
    · simp only [Config.get_regex_handler, RegexApps.get_handler, hf]
    · simp only [AppsConfig.get_handler_from_path, Config.get_regex_handler,
        RegexApps.get_handler, hf]

/-- C7 witness: of two configured regex handlers both matching p1, the
first wins; a path matching neither falls back to MIME resolution. -/
theorem regex_precedence_witness :
    cfgRegex.get_handler_from_path envR "p1" "" false = .ok (.regex rh1) ∧
    cfgRegex.get_handler_from_path envR "zz" "" false =
      .ok (.desktop "viewer.desktop") := by
  constructor
  · exact ((regex_precedence cfgRegex envR "p1" "" false).1 rh1 (by decide)).2.2
  · have h := ((regex_precedence cfgRegex envR "zz" "" false).2 (by decide)).2
    rw [h]
    decide

/-! ## C1 -/

/-- C1 amended: `get_handler` tries the user defaults (exact or
wildcard), then the `type/*` re-query, then the added associations and
the system default, each later step attempted only when the previous one
produced no handler for a non-cancellation reason; the system default is
consulted only when the added associations have no entry at all — a
present-but-empty added entry yields NotFound carrying the MIME without
consulting the system default, and when everything fails the call
returns NotFound carrying the MIME string. -/
theorem resolution_precedence (c : AppsConfig) (env : Env) (mime sel : String) (u : Bool) :
    (∀ h, c.mime_apps.get_handler_from_user env mime sel u = .ok h →
      c.get_handler env mime sel u = .ok h) ∧
    (c.mime_apps.get_handler_from_user env mime sel u = .error .cancelled →
      c.get_handler env mime sel u = .error .cancelled) ∧
    (∀ e h, c.mime_apps.get_handler_from_user env mime sel u = .error e →
      e ≠ .cancelled →
      c.mime_apps.get_handler_from_user env (primaryType mime ++ "/*") sel u = .ok h →
      c.get_handler env mime sel u = .ok h) ∧
    (∀ e e2, c.mime_apps.get_handler_from_user env mime sel u = .error e →
      e ≠ .cancelled →
      c.mime_apps.get_handler_from_user env (primaryType mime ++ "/*") sel u = .error e2 →
      c.get_handler env mime sel u = c.get_handler_from_added_associations mime) ∧
    (∀ x xs, List.lookup mime c.mime_apps.added_associations = some (x :: xs) →
      c.get_handler_from_added_associations mime = .ok x) ∧
    (List.lookup mime c.mime_apps.added_associations = some [] →
      c.get_handler_from_added_associations mime = .error (.notFound mime)) ∧
    (∀ x, List.lookup mime c.mime_apps.added_associations = none →
      SystemApps.get_handler c.system_apps mime = some x →
      c.get_handler_from_added_associations mime = .ok x) ∧
    (List.lookup mime c.mime_apps.added_associations = none →
      SystemApps.get_handler c.system_apps mime = none →
      c.get_handler_from_added_associations mime = .error (.notFound mime)) := by
  refine ⟨?_, ?_, ?_, ?_, ?_, ?_, ?_, ?_⟩
  · intro h h1
    simp only [AppsConfig.get_handler, h1, Except.tryCatch]
  · intro h1
    simp only [AppsConfig.get_handler, h1]
  · intro e h h1 hne h2
    cases e with
    | cancelled => exact absurd rfl hne
    | notFound s => simp only [AppsConfig.get_handler, h1, h2, Except.tryCatch]
    | badCmd s => simp only [AppsConfig.get_handler, h1, h2, Except.tryCatch]
    | selector s => simp only [AppsConfig.get_handler, h1, h2, Except.tryCatch]
    | badPath s => simp only [AppsConfig.get_handler, h1, h2, Except.tryCatch]
    | noTerminal => simp only [AppsConfig.get_handler, h1, h2, Except.tryCatch]
    | otherErr => simp only [AppsConfig.get_handler, h1, h2, Except.tryCatch]
  · intro e e2 h1 hne h2
    cases e with
    | cancelled => exact absurd rfl hne
    | notFound s => simp only [AppsConfig.get_handler, h1, h2, Except.tryCatch]
    | badCmd s => simp only [AppsConfig.get_handler, h1, h2, Except.tryCatch]
    | selector s => simp only [AppsConfig.get_handler, h1, h2, Except.tryCatch]
    | badPath s => simp only [AppsConfig.get_handler, h1, h2, Except.tryCatch]
    | noTerminal => simp only [AppsConfig.get_handler, h1, h2, Except.tryCatch]
    | otherErr => simp only [AppsConfig.get_handler, h1, h2, Except.tryCatch]
  · intro x xs ha
    simp only [AppsConfig.get_handler_from_added_associations, ha, List.head?_cons]
  · intro ha
    simp only [AppsConfig.get_handler_from_added_associations, ha, List.head?_nil]
  · intro x ha hs
    simp only [AppsConfig.get_handler_from_added_associations, ha, hs]
  · intro ha hs
    simp only [AppsConfig.get_handler_from_added_associations, ha, hs]

/-- C1 counterexample: with no defaults, an added entry for a/b whose
handler list is empty, and a system default for a/b, all earlier steps
find nothing yet the system default is never consulted: the call returns
NotFound instead of the system handler the claim's fall-through would
produce. -/
theorem resolution_precedence_counterexample :
    cfgC1.get_handler envT "a/b" "" false = .error (.notFound "a/b") ∧
    List.lookup "a/b" cfgC1.mime_apps.default_apps = none ∧
    cfgC1.mime_apps.get_from_wildcard "a/b" = none ∧
    List.lookup "a/b" cfgC1.mime_apps.added_associations = some [] ∧
    SystemApps.get_handler cfgC1.system_apps "a/b" = some "x.desktop" := by
  refine ⟨?_, ?_, ?_, ?_, ?_⟩ <;> decide

/-- C1 witness: the steps of the amended chain at concrete stores. -/
theorem resolution_precedence_witness :
    cfgWild.get_handler envT "video/webm" "" false = .ok "brave.desktop" ∧
    cfgT.get_handler_from_added_associations "a/b" = .ok "h5" ∧
    cfgC1.get_handler_from_added_associations "a/b" = .error (.notFound "a/b") := by
  refine ⟨?_, ?_, ?_⟩
  · exact (resolution_precedence cfgWild envT "video/webm" "" false).1
      "brave.desktop" (by decide)
  · exact (resolution_precedence cfgT envT "a/b" "" false).2.2.2.2.1 "h5" [] (by decide)
  · exact (resolution_precedence cfgC1 envT "a/b" "" false).2.2.2.2.2.1 (by decide)

/-! ## C2 -/

/-- C2 amended: an empty trimmed selector output with the selector
enabled and at least two tied candidates makes the user lookup fail with
Cancelled, and a cancellation from the first user lookup aborts the whole
`get_handler` chain immediately; however a cancellation arising inside
the `type/*` re-query is caught, and the added-associations/system
fallback still runs. -/
theorem cancellation_propagation (c : AppsConfig) (env : Env) (mime sel : String) (u : Bool) :
    (c.mime_apps.get_handler_from_user env mime sel u = .error .cancelled →
      c.get_handler env mime sel u = .error .cancelled) ∧
    (∀ handlers hs cmd args raw,
      (List.lookup mime c.mime_apps.default_apps).orElse
          (fun _ => c.mime_apps.get_from_wildcard mime) = some handlers →
      handlers.length > 1 →
      handlers.mapM (fun h => (env.entries h).map (fun e => (h, e.name))) = .ok hs →
      env.shlex sel = some (cmd, args) →
      env.spawn cmd args (hs.map (fun h => h.2)) = .ok raw →
      (trimEnd raw).data.isEmpty = true →
      c.mime_apps.get_handler_from_user env mime sel true = .error .cancelled) ∧
    (∀ e, c.mime_apps.get_handler_from_user env mime sel u = .error e →
      e ≠ .cancelled →
      c.mime_apps.get_handler_from_user env (primaryType mime ++ "/*") sel u =
        .error .cancelled →
      c.get_handler env mime sel u = c.get_handler_from_added_associations mime) := by
  refine ⟨?_, ?_, ?_⟩
  · intro h1
    simp only [AppsConfig.get_handler, h1]
  · intro handlers hs cmd args raw hor hlen hmap hshlex hspawn htrim
    have hguard : (true && decide (handlers.length > 1)) = true := by
      simp [hlen]
    simp only [MimeApps.get_handler_from_user, hor, hguard, if_true, hmap,
      select, hshlex, hspawn, htrim, if_true]
  · intro e h1 hne h2
    cases e with
    | cancelled => exact absurd rfl hne
    | notFound s => simp only [AppsConfig.get_handler, h1, h2, Except.tryCatch]
    | badCmd s => simp only [AppsConfig.get_handler, h1, h2, Except.tryCatch]
    | selector s => simp only [AppsConfig.get_handler, h1, h2, Except.tryCatch]
    | badPath s => simp only [AppsConfig.get_handler, h1, h2, Except.tryCatch]
    | noTerminal => simp only [AppsConfig.get_handler, h1, h2, Except.tryCatch]
    | otherErr => simp only [AppsConfig.get_handler, h1, h2, Except.tryCatch]

/-- C2 counterexample: in cfgT the first lookup of a/b finds nothing (an
empty exact entry), the interactive type-wildcard re-query for "a slash
star" is cancelled by empty selector output over its two tied candidates,
yet the chain does not abort: it returns the added-association handler. -/
theorem cancellation_propagation_counterexample :
    cfgT.mime_apps.get_handler_from_user envT "a/b" "sel" true =
      .error (.notFound "a/b") ∧
    primaryType "a/b" ++ "/*" = "a/*" ∧
    (List.lookup "a/*" cfgT.mime_apps.default_apps).map List.length = some 2 ∧
    cfgT.mime_apps.get_handler_from_user envT "a/*" "sel" true = .error .cancelled ∧
    cfgT.get_handler envT "a/b" "sel" true = .ok "h5" := by
  refine ⟨?_, ?_, ?_, ?_, ?_⟩ <;> decide

/-- C2 witness: two tied candidates for a/b, the selector produces
whitespace only: the user lookup is cancelled and the whole chain fails
with Cancelled. -/
theorem cancellation_propagation_witness :
    cfgTie.mime_apps.get_handler_from_user envT "a/b" "sel" true = .error .cancelled ∧
    cfgTie.get_handler envT "a/b" "sel" true = .error .cancelled := by
  have hB := (cancellation_propagation cfgTie envT "a/b" "sel" true).2.1
    ["h1", "h2"] [("h1", "Nh1"), ("h2", "Nh2")] "sel" [] "  "
    (by decide) (by decide) (by decide) (by decide) (by decide) (by decide)
  exact ⟨hB, (cancellation_propagation cfgTie envT "a/b" "sel" true).1 hB⟩

end Handlr
